import Mathlib

/-!
Verification of the obsidian-fm metadata normalization and aggregation engine.

The embedding models the Python value domain used by the frontmatter parser
and analyzer: scalars (null, bool, int, str), lists, tuples (the canonical
hashable form produced by normalization) and dicts (insertion-ordered
association lists, as Python dicts are).
-/

namespace ObsidianFm

/-- The dynamic value domain of decoded frontmatter (Python values).
Dicts are insertion-ordered association lists with unique keys, mirroring
Python dict semantics.  Tuples are Python tuples (the canonical form). -/
inductive Val : Type where
  | null : Val
  | bool : Bool → Val
  | int : Int → Val
  | str : String → Val
  | list : List Val → Val
  | tuple : List Val → Val
  | dict : List (Val × Val) → Val

namespace Val

mutual
/-- Structural equality test on values (Python `==` on this fragment). -/
def beq : Val → Val → Bool
  | .null, .null => true
  | .bool a, .bool b => a == b
  | .int a, .int b => a == b
  | .str a, .str b => a == b
  | .list as, .list bs => beqList as bs
  | .tuple as, .tuple bs => beqList as bs
  | .dict as, .dict bs => beqPairs as bs
  | _, _ => false

/-- Pointwise structural equality of value lists. -/
def beqList : List Val → List Val → Bool
  | [], [] => true
  | a :: as, b :: bs => beq a b && beqList as bs
  | _, _ => false

/-- Pointwise structural equality of pair lists. -/
def beqPairs : List (Val × Val) → List (Val × Val) → Bool
  | [], [] => true
  | p :: ps, q :: qs => beq p.1 q.1 && beq p.2 q.2 && beqPairs ps qs
  | _, _ => false
end

theorem sizeOf_pos : ∀ v : Val, 0 < sizeOf v := by
  intro v; cases v <;> simp_arith

theorem beq_iff_eq_all : ∀ n : Nat,
    (∀ a b : Val, sizeOf a ≤ n → (beq a b = true ↔ a = b)) ∧
    (∀ as bs : List Val, sizeOf as ≤ n → (beqList as bs = true ↔ as = bs)) ∧
    (∀ ps qs : List (Val × Val), sizeOf ps ≤ n → (beqPairs ps qs = true ↔ ps = qs)) := by
  intro n
  induction n with
  | zero =>
    refine ⟨fun a b h => absurd h ?_, fun as bs h => absurd h ?_, fun ps qs h => absurd h ?_⟩
    · have := sizeOf_pos a; omega
    · cases as <;> simp_arith
    · cases ps <;> simp_arith
  | succ n ih =>
    obtain ⟨ihv, ihl, ihp⟩ := ih
    refine ⟨fun a b h => ?_, fun as bs h => ?_, fun ps qs h => ?_⟩
    · cases a <;> cases b <;> simp_all [beq]
      case list.list as bs =>
        have : sizeOf as ≤ n := by simp_arith at h; omega
        exact ihl as bs this
      case tuple.tuple as bs =>
        have : sizeOf as ≤ n := by simp_arith at h; omega
        exact ihl as bs this
      case dict.dict ps qs =>
        have : sizeOf ps ≤ n := by simp_arith at h; omega
        exact ihp ps qs this
    · cases as with
      | nil => cases bs <;> simp [beqList]
      | cons a as =>
        cases bs with
        | nil => simp [beqList]
        | cons b bs =>
          have ha : sizeOf a ≤ n := by simp_arith at h; omega
          have has : sizeOf as ≤ n := by simp_arith at h; omega
          simp [beqList, ihv a b ha, ihl as bs has]
    · cases ps with
      | nil => cases qs <;> simp [beqPairs]
      | cons p ps =>
        obtain ⟨k, v⟩ := p
        cases qs with
        | nil => simp [beqPairs]
        | cons q qs =>
          obtain ⟨k', v'⟩ := q
          have hk : sizeOf k ≤ n := by simp_arith at h; omega
          have hv : sizeOf v ≤ n := by simp_arith at h; omega
          have hps : sizeOf ps ≤ n := by simp_arith at h; omega
          simp [beqPairs, ihv k k' hk, ihv v v' hv, ihp ps qs hps, and_assoc]

theorem beq_iff_eq (a b : Val) : beq a b = true ↔ a = b :=
  (beq_iff_eq_all (sizeOf a)).1 a b (Nat.le_refl _)

instance : DecidableEq Val := fun a b =>
  decidable_of_iff (beq a b = true) (beq_iff_eq a b)

mutual
/-- Python hashability: lists and dicts are unhashable; a tuple is hashable
iff all its elements are; scalars are hashable. -/
def hashable : Val → Bool
  | .list _ => false
  | .dict _ => false
  | .tuple xs => hashableList xs
  | _ => true

/-- Hashability of every element of a list. -/
def hashableList : List Val → Bool
  | [] => true
  | x :: xs => hashable x && hashableList xs
end

end Val

/-- Lexicographic comparison of char lists by code point (Python `<=` on
strings). -/
def charListLe : List Char → List Char → Bool
  | [], _ => true
  | _ :: _, [] => false
  | a :: as, b :: bs => if a = b then charListLe as bs else decide (a < b)

/-- Python string comparison, lexicographic by Unicode code point. -/
def strLeb (a b : String) : Bool := charListLe a.data b.data

/-- Key comparison used when sorting dict entries in `normalize_value`.
Python's `sorted` compares the `(key, value)` tuples; dict keys are unique,
so the comparison is decided by the keys.  Frontmatter mappings are
string-keyed (spec §3); `sorted` raises on incomparable keys, which cannot
occur on that domain. -/
def keyLE : Val → Val → Bool
  | .str a, .str b => strLeb a b
  | _, _ => true

/-- Stable insertion into a key-sorted pair list (models Python `sorted`). -/
def insertPair (p : Val × Val) : List (Val × Val) → List (Val × Val)
  | [] => [p]
  | q :: qs => if keyLE p.1 q.1 then p :: q :: qs else q :: insertPair p qs

/-- Sort dict entries by key ascending (models Python `sorted` in
`normalize_value`). -/
def sortPairs : List (Val × Val) → List (Val × Val)
  | [] => []
  | p :: ps => insertPair p (sortPairs ps)

mutual
/-- `FrontmatterParser.normalize_value`: lists become tuples of normalized
elements; dicts become tuples of `(key, normalized value)` 2-tuples sorted
by key ascending; everything else passes through unchanged. -/
def normalize_value : Val → Val
  | .list xs => .tuple (normList xs)
  | .dict kvs => .tuple ((sortPairs (normPairs kvs)).map fun p => .tuple [p.1, p.2])
  | v => v

/-- Normalize each element of a list (the generator inside the `list` case). -/
def normList : List Val → List Val
  | [] => []
  | x :: xs => normalize_value x :: normList xs

/-- Normalize the value of each dict entry (the generator inside the `dict`
case of `normalize_value`). -/
def normPairs : List (Val × Val) → List (Val × Val)
  | [] => []
  | p :: rest => (p.1, normalize_value p.2) :: normPairs rest
end

/-- Python dict insertion: replace the value in place if the key is present
(keeping its position), else append at the end. -/
def pyInsert (d : List (Val × Val)) (k v : Val) : List (Val × Val) :=
  match d with
  | [] => [(k, v)]
  | (k', v') :: rest => if k' = k then (k', v) :: rest else (k', v') :: pyInsert rest k v

/-- The guard `all(isinstance(item, tuple) and len(item) == 2 for item in value)`
in `denormalize_value`. -/
def allPairs : List Val → Bool
  | [] => true
  | .tuple [_, _] :: rest => allPairs rest
  | _ :: _ => false

mutual
/-- `FrontmatterParser.denormalize_value`: a non-empty tuple all of whose
elements are 2-tuples is reconstructed as a dict (the comprehension
`\x7bk: denormalize_value(v) for k, v in value\x7d`); if that raises
(an unhashable key, Python `TypeError`) the fallback rebuilds a list of
recursively denormalized elements.  Any other tuple becomes a list of
denormalized elements; non-tuples pass through. -/
def denormalize_value : Val → Val
  | .tuple [] => .list []
  | .tuple (x :: xs) =>
    if allPairs (x :: xs) then
      match buildAcc [] (x :: xs) with
      | some d => .dict d
      | none => .list (denormList (x :: xs))
    else .list (denormList (x :: xs))
  | v => v

/-- Denormalize each element (the list-comprehension fallback/else branch). -/
def denormList : List Val → List Val
  | [] => []
  | x :: xs => denormalize_value x :: denormList xs

/-- The dict comprehension of `denormalize_value`, evaluated left to right:
each 2-tuple `(k, v)` inserts `k ↦ denormalize_value v` (Python dict
semantics, later keys overwrite earlier ones); an unhashable key raises
`TypeError`, modelled as `none`. -/
def buildAcc (acc : List (Val × Val)) : List Val → Option (List (Val × Val))
  | [] => some acc
  | .tuple [k, v] :: rest =>
      if k.hashable then buildAcc (pyInsert acc k (denormalize_value v)) rest
      else none
  | _ :: _ => none
end

/-- First-match key lookup in a Python dict (hash lookup plus `==`). -/
def lookupVal : List (Val × Val) → Val → Option Val
  | [], _ => none
  | (k', v') :: rest, k => if k' = k then some v' else lookupVal rest k

mutual
/-- Python `==` on values: lists and tuples compare pointwise (never equal to
each other), dicts compare as key-value sets (same size, every left entry
found in the right by key with equal value — insertion order is ignored),
scalars compare structurally. -/
def pyEq : Val → Val → Bool
  | .list as, .list bs => pyEqList as bs
  | .tuple as, .tuple bs => pyEqList as bs
  | .dict as, .dict bs => decide (as.length = bs.length) && pyEqPairs as bs
  | a, b => Val.beq a b

/-- Pointwise Python `==` on element lists. -/
def pyEqList : List Val → List Val → Bool
  | [], [] => true
  | a :: as, b :: bs => pyEq a b && pyEqList as bs
  | _, _ => false

/-- Every entry of the first dict is present in the second with a `==` value. -/
def pyEqPairs : List (Val × Val) → List (Val × Val) → Bool
  | [], _ => true
  | (k, v) :: rest, bs =>
      (match lookupVal bs k with
       | some v' => pyEq v v'
       | none => false) && pyEqPairs rest bs
end

/-! ## The aggregation engine (`DataAnalyzer`) -/

/-- A frontmatter mapping: attribute name to raw value, in insertion order,
keys unique (a Python dict). -/
abbrev Fm := List (String × Val)

/-- First-match lookup in a frontmatter mapping (`frontmatter[attribute]` /
`attribute in frontmatter`). -/
def fmLookup : Fm → String → Option Val
  | [], _ => none
  | (k, v) :: rest, attr => if k = attr then some v else fmLookup rest attr

/-- The analyzer's state: the index `\x7bfile_path: \x7battribute: value\x7d\x7d`,
an insertion-ordered mapping from path to frontmatter mapping. -/
structure Analyzer where
  data : List (String × Fm)

/-- Python dict insertion for the index: replace in place when the path is
already present, else append. -/
def dataInsert : List (String × Fm) → String → Fm → List (String × Fm)
  | [], p, fm => [(p, fm)]
  | (p', fm') :: rest, p, fm =>
      if p' = p then (p', fm) :: rest else (p', fm') :: dataInsert rest p fm

/-- Python dict lookup in the index (`self.data.get(path)`). -/
def dataLookup : List (String × Fm) → String → Option Fm
  | [], _ => none
  | (p', fm) :: rest, p => if p' = p then some fm else dataLookup rest p

/-- `DataAnalyzer.add_file`: a no-op when `frontmatter` is `None`, otherwise
stores the mapping verbatim under the path key. -/
def add_file (a : Analyzer) (p : String) (fm : Option Fm) : Analyzer :=
  match fm with
  | none => a
  | some m => ⟨dataInsert a.data p m⟩

/-- `DataAnalyzer.get_total_files`. -/
def get_total_files (a : Analyzer) : Nat := a.data.length

/-- `DataAnalyzer.get_files_with_frontmatter`: files whose mapping is truthy
(non-empty). -/
def get_files_with_frontmatter (a : Analyzer) : Nat :=
  (a.data.filter fun e => !e.2.isEmpty).length

/-- Python truthiness of an optional integer limit: `None` and `0` are falsy. -/
def truthyLimit : Option Nat → Bool
  | none => false
  | some n => n != 0

/-- `if limit: xs = xs[:limit]` — truncation happens only for a truthy limit. -/
def applyLimit (limit : Option Nat) (xs : List α) : List α :=
  if truthyLimit limit then xs.take (limit.getD 0) else xs

/-- `DataAnalyzer._values_match`: for a stored list, membership of the search
value at the top level; otherwise direct equality. -/
def valuesMatch (fmv sv : Val) : Bool :=
  match fmv with
  | .list xs => xs.any fun x => x = sv
  | _ => fmv = sv

/-- The loop of `DataAnalyzer.get_files_with_attribute`: walk the index in
insertion order, append matching paths, and break once a truthy limit is
reached (the check runs after each file, matching or not). -/
def gfwaLoop (attr : String) (v : Option Val) (limit : Option Nat) :
    List (String × Fm) → List String → List String
  | [], res => res
  | (p, fm) :: rest, res =>
      let res' :=
        match fmLookup fm attr with
        | none => res
        | some fv =>
          match v with
          | none => res ++ [p]
          | some sv => if valuesMatch fv sv then res ++ [p] else res
      if truthyLimit limit && decide (limit.getD 0 ≤ res'.length) then res'
      else gfwaLoop attr v limit rest res'

/-- `DataAnalyzer.get_files_with_attribute`. -/
def get_files_with_attribute (a : Analyzer) (attr : String) (v : Option Val)
    (limit : Option Nat) : List String :=
  gfwaLoop attr v limit a.data []

/-- `value_counts[k] += 1` on a `defaultdict(int)`: increment in place if the
key is present, else append it with count 1 (insertion order preserved). -/
def bump : List (Val × Nat) → Val → List (Val × Nat)
  | [], k => [(k, 1)]
  | (k', n) :: rest, k =>
      if k' = k then (k', n + 1) :: rest else (k', n) :: bump rest k

/-- `dict.get(key, 0)` on a count mapping. -/
def lookupCount : List (Val × Nat) → Val → Nat
  | [], _ => 0
  | (k, n) :: rest, q => if k = q then n else lookupCount rest q

/-- The skip tests of the explode branch of `get_attribute_values`: an element
is skipped iff it is `None`, equals `""`, is an empty list, is an empty dict,
or its normalized form is the empty tuple. -/
def skipItem (item : Val) : Bool :=
  decide (item = .null) || decide (item = .str "") ||
  (match item with | .list [] => true | .dict [] => true | _ => false) ||
  decide (normalize_value item = .tuple [])

/-- The inner `for item in value` loop of the explode branch. -/
def explodeItems (counts : List (Val × Nat)) : List Val → List (Val × Nat)
  | [] => counts
  | item :: rest =>
      if skipItem item then explodeItems counts rest
      else explodeItems (bump counts (normalize_value item)) rest

/-- The main loop of `DataAnalyzer.get_attribute_values` over the index:
explode list values element-wise when `ex` is set, otherwise count the
whole-value normalization. -/
def gavLoop (attr : String) (ex : Bool) :
    List (String × Fm) → List (Val × Nat) → List (Val × Nat)
  | [], counts => counts
  | (_, fm) :: rest, counts =>
      match fmLookup fm attr with
      | none => gavLoop attr ex rest counts
      | some value =>
        if ex then
          match value with
          | .list items => gavLoop attr ex rest (explodeItems counts items)
          | _ => gavLoop attr ex rest (bump counts (normalize_value value))
        else gavLoop attr ex rest (bump counts (normalize_value value))

/-- Stable descending insertion by a count projection (one step of Python's
stable `sorted(..., reverse=True)`). -/
def insertDescBy (count : α → Nat) (x : α) : List α → List α
  | [] => [x]
  | y :: ys => if count y ≤ count x then x :: y :: ys else y :: insertDescBy count x ys

/-- Stable descending sort by a count projection, modelling
`sorted(items, key=count, reverse=True)`. -/
def sortDescBy (count : α → Nat) : List α → List α
  | [] => []
  | x :: xs => insertDescBy count x (sortDescBy count xs)

/-- `DataAnalyzer.get_attribute_values`: group counts in first-seen order,
sort by count descending (stable), truncate at a truthy limit.  The final
dict comprehension keeps normalized values as keys, modelled by the
association list itself. -/
def get_attribute_values (a : Analyzer) (attr : String) (limit : Option Nat)
    (explode_list : Bool) : List (Val × Nat) :=
  applyLimit limit (sortDescBy (fun p => p.2) (gavLoop attr explode_list a.data []))

/-- `DataAnalyzer.get_child_count`: `parent_counts.get(hub, 0) +
refs_counts.get(hub, 0)` over the whole-value counts of the parent attribute
and the exploded counts of the refs attribute. -/
def get_child_count (a : Analyzer) (hub : Val) (pa ra : String) : Nat :=
  lookupCount (get_attribute_values a pa none false) hub +
  lookupCount (get_attribute_values a ra none true) hub

/-- `hubs = set(parent_counts.keys()) | set(refs_counts.keys())`.  Python
iterates a `set`, whose order is unspecified; the union is modelled as the
parent keys followed by the refs keys not already present — every property
proved about the breakdown is independent of that order. -/
def unionKeys (pc rc : List (Val × Nat)) : List Val :=
  pc.map Prod.fst ++ (rc.map Prod.fst).filter fun k => !pc.any fun p => p.1 = k

/-- `DataAnalyzer.get_child_counts_breakdown`: union of the two count maps'
keys, a `(parent, refs, total)` triple per hub, sorted by total descending. -/
def get_child_counts_breakdown (a : Analyzer) (pa ra : String) :
    List (Val × Nat × Nat × Nat) :=
  let pc := get_attribute_values a pa none false
  let rc := get_attribute_values a ra none true
  sortDescBy (fun e => e.2.2.2)
    ((unionKeys pc rc).map fun h => (h, lookupCount pc h, lookupCount rc h,
      lookupCount pc h + lookupCount rc h))

/-- `value_notes[k].append(p)` on a `defaultdict(list)`. -/
def bumpNote : List (Val × List String) → Val → String → List (Val × List String)
  | [], k, p => [(k, [p])]
  | (k', ns) :: rest, k, p =>
      if k' = k then (k', ns ++ [p]) :: rest else (k', ns) :: bumpNote rest k p

/-- `value_notes[normalized_value]` — dict lookup in the grouping map,
defaulting to the empty list. -/
def lookupGroup : List (Val × List String) → Val → List String
  | [], _ => []
  | (k, ns) :: rest, q => if k = q then ns else lookupGroup rest q

/-- The grouping loop of `DataAnalyzer.get_attribute_values_with_notes`. -/
def gavnLoop (attr : String) :
    List (String × Fm) → List (Val × List String) → List (Val × List String)
  | [], groups => groups
  | (p, fm) :: rest, groups =>
      match fmLookup fm attr with
      | none => gavnLoop attr rest groups
      | some value => gavnLoop attr rest (bumpNote groups (normalize_value value) p)

/-- `DataAnalyzer.get_attribute_values_with_notes`: group note paths per
normalized value, sort by group size descending, truncate values at a truthy
`limit_values`; each reported count is the length of the *untruncated* group
(`len(value_notes[normalized_value])`) while the note list is truncated at a
truthy `limit_notes`. -/
def get_attribute_values_with_notes (a : Analyzer) (attr : String)
    (limit_values limit_notes : Option Nat) : List (Val × Nat × List String) :=
  let sorted := applyLimit limit_values
    (sortDescBy (fun g => g.2.length) (gavnLoop attr a.data []))
  sorted.map fun g => (g.1, g.2.length, applyLimit limit_notes g.2)

/-- The combined hub scenario of the spec's testable properties: two notes
with `parent: "[[Hub]]"` and two notes with refs lists mentioning
`"[[Hub]]"` (one also `"[[Other]]"`). -/
def hubScenario : Analyzer := ⟨[
  ("c1", [("parent", .str "[[Hub]]")]),
  ("c2", [("parent", .str "[[Hub]]")]),
  ("r1", [("refs", .list [.str "[[Hub]]", .str "[[Other]]"])]),
  ("r2", [("refs", .list [.str "[[Hub]]"])])]⟩

/-- The explode-semantics scenario: `refs: [[[A]], [[B]]]`, `refs: [[[A]]]`
and `refs: []` on three notes. -/
def refsScenario : Analyzer := ⟨[
  ("note1", [("refs", .list [.str "[[A]]", .str "[[B]]"])]),
  ("note2", [("refs", .list [.str "[[A]]"])]),
  ("note3", [("refs", .list [])])]⟩

/-! ## Specification-side definitions

Independent brute-force characterizations, written from the claims' words, to
be compared with the analyzer's loop-and-sort implementations. -/

/-- Brute count of notes whose value for `attr`, whole-value normalized,
equals `q`. -/
def wholeBrute (attr : String) (q : Val) : List (String × Fm) → Nat
  | [] => 0
  | (_, fm) :: rest =>
      (match fmLookup fm attr with
       | some v => if normalize_value v = q then 1 else 0
       | none => 0) + wholeBrute attr q rest

/-- Brute explode count: each non-skipped element of a list value that
normalizes to `q` counts once; a non-list value counts as a single
whole-value normalization. -/
def elemBrute (attr : String) (q : Val) : List (String × Fm) → Nat
  | [] => 0
  | (_, fm) :: rest =>
      (match fmLookup fm attr with
       | some (.list items) =>
           (items.filter fun i => !skipItem i && decide (normalize_value i = q)).length
       | some v => if normalize_value v = q then 1 else 0
       | none => 0) + elemBrute attr q rest

/-- The brute count matching `gavLoop`'s mode: exploded when `ex` is set. -/
def modeBrute (ex : Bool) (attr : String) (q : Val) (data : List (String × Fm)) : Nat :=
  if ex then elemBrute attr q data else wholeBrute attr q data

/-- Count of *notes* whose `attr` value is a sequence containing an element
that normalizes to `q` (the refs count as claim C1 words it). -/
def refsNoteBrute (attr : String) (q : Val) : List (String × Fm) → Nat
  | [] => 0
  | (_, fm) :: rest =>
      (match fmLookup fm attr with
       | some (.list items) => if items.any (fun i => normalize_value i = q) then 1 else 0
       | _ => 0) + refsNoteBrute attr q rest

/-- The note paths, in index order, whose value for `attr` normalizes to `q`. -/
def groupBrute (attr : String) (q : Val) : List (String × Fm) → List String
  | [] => []
  | (p, fm) :: rest =>
      (match fmLookup fm attr with
       | some v => if normalize_value v = q then [p] else []
       | none => []) ++ groupBrute attr q rest

/-- `v` appears raw as some note's parent value or as an element of some
note's refs sequence (the union claim C5 words). -/
def appearsRaw (pa ra : String) (v : Val) (data : List (String × Fm)) : Bool :=
  data.any fun e =>
    (match fmLookup e.2 pa with | some x => decide (x = v) | none => false) ||
    (match fmLookup e.2 ra with
     | some (.list items) => items.any fun i => i = v
     | _ => false)

/-- The match relation claim C6 words: the stored value equals the search
value directly, or is a sequence having it as a top-level member. -/
def valuesMatchClaim (fmv sv : Val) : Bool :=
  decide (fmv = sv) ||
  (match fmv with | .list xs => xs.any fun x => x = sv | _ => false)

/-- A 2-element sequence (the shape claim C2's ambiguity condition names). -/
def is2seq : Val → Bool
  | .list [_, _] => true
  | _ => false

mutual
/-- Claim C2's ambiguity exclusion, as worded: no sequence all of whose
elements are 2-element sequences (read favourably as non-empty ones), and no
empty mapping, recursively. -/
def noAmbigClaim : Val → Bool
  | .list xs => (xs.isEmpty || !xs.all is2seq) && noAmbigList xs
  | .dict kvs => !kvs.isEmpty && noAmbigPairs kvs
  | _ => true

/-- `noAmbigClaim` on every element. -/
def noAmbigList : List Val → Bool
  | [] => true
  | x :: xs => noAmbigClaim x && noAmbigList xs

/-- `noAmbigClaim` on every entry value. -/
def noAmbigPairs : List (Val × Val) → Bool
  | [] => true
  | p :: ps => noAmbigClaim p.2 && noAmbigPairs ps
end

/-- Keys of a mapping are strings and pairwise distinct. -/
def distinctStrKeys : List (Val × Val) → Bool
  | [] => true
  | (k, _) :: rest =>
      (match k with | .str _ => true | _ => false) &&
      !(rest.any fun q => q.1 = k) && distinctStrKeys rest

mutual
/-- A value built from scalars, sequences and string-keyed mappings (claim
C2's stated domain): no tuples, and every mapping has distinct string keys. -/
def isSourceVal : Val → Bool
  | .tuple _ => false
  | .list xs => isSourceList xs
  | .dict kvs => distinctStrKeys kvs && isSourcePairs kvs
  | _ => true

/-- `isSourceVal` on every element. -/
def isSourceList : List Val → Bool
  | [] => true
  | x :: xs => isSourceVal x && isSourceList xs

/-- `isSourceVal` on every entry value. -/
def isSourcePairs : List (Val × Val) → Bool
  | [] => true
  | p :: ps => isSourceVal p.2 && isSourcePairs ps
end

/-- The element shapes that make `denormalize_value` attempt a mapping:
the element's normal form is a 2-element tuple. -/
def normalizesToPair (x : Val) : Bool :=
  match normalize_value x with | .tuple [_, _] => true | _ => false

mutual
/-- The amended round-trip domain: a source value (no tuples; mappings
non-empty with distinct string keys) in which no non-empty sequence has all
its elements normalizing to 2-element tuples. -/
def safeVal : Val → Bool
  | .list xs => (xs.isEmpty || !xs.all normalizesToPair) && safeList xs
  | .dict kvs => !kvs.isEmpty && distinctStrKeys kvs && safePairs kvs
  | .tuple _ => false
  | _ => true

/-- `safeVal` on every element. -/
def safeList : List Val → Bool
  | [] => true
  | x :: xs => safeVal x && safeList xs

/-- `safeVal` on every entry value. -/
def safePairs : List (Val × Val) → Bool
  | [] => true
  | p :: ps => safeVal p.2 && safePairs ps
end

/-- All keys of a pair list are strings. -/
def StrKeyed (l : List (Val × Val)) : Prop := ∀ p ∈ l, ∃ s, p.1 = Val.str s

/-! ## Supporting lemmas -/

theorem charListLe_total : ∀ as bs, charListLe as bs = true ∨ charListLe bs as = true := by
  intro as
  induction as with
  | nil => intro bs; left; rfl
  | cons a as ih =>
    intro bs
    cases bs with
    | nil => right; rfl
    | cons b bs =>
      by_cases h : a = b
      · subst h
        rcases ih bs with h | h
        · left; simpa [charListLe] using h
        · right; simpa [charListLe] using h
      · have hne : ¬ b = a := fun e => h e.symm
        rcases lt_or_gt_of_ne (show a ≠ b from h) with hl | hl
        · left; simp [charListLe, h, hl]
        · right; simp [charListLe, hne]; exact hl

theorem charListLe_antisymm :
    ∀ as bs, charListLe as bs = true → charListLe bs as = true → as = bs := by
  intro as
  induction as with
  | nil =>
    intro bs h1 _
    cases bs with
    | nil => rfl
    | cons b bs => simp [charListLe] at *
  | cons a as ih =>
    intro bs h1 h2
    cases bs with
    | nil => simp [charListLe] at h1
    | cons b bs =>
      by_cases h : a = b
      · subst h
        simp only [charListLe, if_pos rfl] at h1 h2
        rw [ih bs h1 h2]
      · have hne : ¬ b = a := fun e => h e.symm
        simp only [charListLe, if_neg h, decide_eq_true_eq] at h1
        simp only [charListLe, if_neg hne, decide_eq_true_eq] at h2
        exact absurd h2 (not_lt_of_gt h1)

theorem charListLe_trans :
    ∀ as bs cs, charListLe as bs = true → charListLe bs cs = true →
      charListLe as cs = true := by
  intro as
  induction as with
  | nil => intro bs cs _ _; rfl
  | cons a as ih =>
    intro bs cs h1 h2
    cases bs with
    | nil => simp [charListLe] at h1
    | cons b bs =>
      cases cs with
      | nil => simp [charListLe] at h2
      | cons c cs =>
        by_cases hab : a = b
        · subst hab
          simp only [charListLe, if_pos rfl] at h1
          by_cases hbc : a = c
          · subst hbc
            simp only [charListLe, if_pos rfl] at h2 ⊢
            exact ih bs cs h1 h2
          · simp only [charListLe, if_neg hbc] at h2 ⊢
            exact h2
        · simp only [charListLe, if_neg hab, decide_eq_true_eq] at h1
          by_cases hbc : b = c
          · subst hbc
            simp only [charListLe, if_neg hab, decide_eq_true_eq]
            exact h1
          · simp only [charListLe, if_neg hbc, decide_eq_true_eq] at h2
            have hac : ¬ a = c := by
              intro e; subst e; exact absurd (h1.trans h2) (lt_irrefl a)
            simp only [charListLe, if_neg hac, decide_eq_true_eq]
            exact h1.trans h2

theorem strLeb_total (a b : String) : strLeb a b = true ∨ strLeb b a = true :=
  charListLe_total a.data b.data

theorem strLeb_antisymm (a b : String) :
    strLeb a b = true → strLeb b a = true → a = b := by
  intro h1 h2
  cases a; cases b
  exact congrArg String.mk (charListLe_antisymm _ _ h1 h2)

theorem strLeb_trans (a b c : String) :
    strLeb a b = true → strLeb b c = true → strLeb a c = true :=
  charListLe_trans a.data b.data c.data

theorem insertPair_comm (x y : Val × Val) (sx sy : String)
    (hx : x.1 = Val.str sx) (hy : y.1 = Val.str sy) (hxy : sx ≠ sy) :
    ∀ l, StrKeyed l → insertPair x (insertPair y l) = insertPair y (insertPair x l) := by
  have hone : ∀ (a b : String), a ≠ b → strLeb a b = true → strLeb b a = false := by
    intro a b hne hab
    cases hba : strLeb b a
    · rfl
    · exact absurd (strLeb_antisymm a b hab hba) hne
  have htot : ∀ (a b : String), strLeb a b = false → strLeb b a = true := by
    intro a b hab
    rcases strLeb_total a b with h | h
    · rw [hab] at h; exact absurd h (by simp)
    · exact h
  intro l
  induction l with
  | nil =>
    intro _
    cases hxy2 : strLeb sx sy
    · have h2 := htot _ _ hxy2
      simp [insertPair, keyLE, hx, hy, hxy2, h2]
    · have h2 := hone _ _ hxy hxy2
      simp [insertPair, keyLE, hx, hy, hxy2, h2]
  | cons q l ih =>
    intro hsk
    obtain ⟨sq, hq⟩ := hsk q (by simp)
    have hsl : StrKeyed l := fun p hp => hsk p (by simp [hp])
    have ihl := ih hsl
    cases b1 : strLeb sx sq <;> cases b2 : strLeb sy sq
    · simp [insertPair, keyLE, hx, hy, hq, b1, b2, ihl]
    · have hxyF : strLeb sx sy = false := by
        cases h : strLeb sx sy
        · rfl
        · exact absurd (strLeb_trans _ _ _ h b2) (by simp [b1])
      have hsyx := htot _ _ hxyF
      simp [insertPair, keyLE, hx, hy, hq, b1, b2, hxyF, hsyx]
    · have hyxF : strLeb sy sx = false := by
        cases h : strLeb sy sx
        · rfl
        · exact absurd (strLeb_trans _ _ _ h b1) (by simp [b2])
      have hsxy := htot _ _ hyxF
      simp [insertPair, keyLE, hx, hy, hq, b1, b2, hyxF, hsxy]
    · cases hxy2 : strLeb sx sy
      · have h2 := htot _ _ hxy2
        have h3 := hone _ _ (fun e => hxy e.symm) h2
        simp [insertPair, keyLE, hx, hy, hq, b1, b2, hxy2, h2, h3]
      · have h2 := hone _ _ hxy hxy2
        simp [insertPair, keyLE, hx, hy, hq, b1, b2, hxy2, h2]

theorem insertPair_perm (p : Val × Val) :
    ∀ l, List.Perm (insertPair p l) (p :: l) := by
  intro l
  induction l with
  | nil => simp [insertPair]
  | cons q qs ih =>
    by_cases h : keyLE p.1 q.1 = true
    · simp [insertPair, h]
    · simp only [insertPair, if_neg h]
      exact (ih.cons q).trans (List.Perm.swap p q qs)

theorem sortPairs_perm : ∀ l, List.Perm (sortPairs l) l := by
  intro l
  induction l with
  | nil => simp [sortPairs]
  | cons p ps ih => exact (insertPair_perm p _).trans (ih.cons p)

theorem sortPairs_congr :
    ∀ {l₁ l₂ : List (Val × Val)}, List.Perm l₁ l₂ → StrKeyed l₁ →
      (l₁.map Prod.fst).Nodup → sortPairs l₁ = sortPairs l₂ := by
  intro l₁ l₂ h
  induction h with
  | nil => intro _ _; rfl
  | cons x _ ih =>
    intro hsk hnd
    simp only [sortPairs]
    rw [ih (fun p hp => hsk p (by simp [hp])) (by simpa using (List.nodup_cons.mp (by simpa using hnd)).2)]
  | swap x y l =>
    intro hsk hnd
    obtain ⟨sy, hys⟩ := hsk y (by simp)
    obtain ⟨sx, hxs⟩ := hsk x (by simp)
    have hne : sx ≠ sy := by
      intro e
      subst e
      simp only [List.map_cons, List.nodup_cons, List.mem_cons] at hnd
      exact hnd.1 (Or.inl (by rw [hys, hxs]))
    have hskS : StrKeyed (sortPairs l) := fun p hp =>
      hsk p (by simp [(sortPairs_perm l).mem_iff.mp hp])
    simp only [sortPairs]
    exact (insertPair_comm x y sx sy hxs hys hne (sortPairs l) hskS).symm
  | trans h1 _ ih1 ih2 =>
    intro hsk hnd
    rw [ih1 hsk hnd]
    exact ih2 (fun p hp => hsk p (h1.mem_iff.mpr hp))
      (((h1.map Prod.fst).nodup_iff).mp hnd)

theorem normPairs_eq_map :
    ∀ l, normPairs l = l.map fun p => (p.1, normalize_value p.2) := by
  intro l
  induction l with
  | nil => rfl
  | cons p ps ih => simp [normPairs, ih]

theorem distinctStrKeys_spec :
    ∀ l, distinctStrKeys l = true → StrKeyed l ∧ (l.map Prod.fst).Nodup := by
  intro l
  induction l with
  | nil => intro _; exact ⟨fun p hp => absurd hp (by simp), by simp⟩
  | cons e rest ih =>
    obtain ⟨k, v⟩ := e
    intro h
    simp only [distinctStrKeys, Bool.and_eq_true] at h
    obtain ⟨⟨hks, hnm⟩, hrest⟩ := h
    obtain ⟨hsk, hnd⟩ := ih hrest
    constructor
    · intro p hp
      rcases List.mem_cons.mp hp with hp | hp
      · subst hp
        cases k <;> simp at hks
        exact ⟨_, rfl⟩
      · exact hsk p hp
    · simp only [List.map_cons, List.nodup_cons]
      refine ⟨?_, hnd⟩
      intro hk
      rcases List.mem_map.mp hk with ⟨q, hq, he⟩
      have : rest.any (fun q => q.1 = k) = true :=
        List.any_eq_true.mpr ⟨q, hq, by simp [he]⟩
      simp [this] at hnm

theorem denormList_eq_map (l : List Val) : denormList l = l.map denormalize_value := by
  induction l with
  | nil => rfl
  | cons x xs ih => simp [denormList, ih]

theorem dataInsert_lookup (p : String) (m : Fm) :
    ∀ d, dataLookup (dataInsert d p m) p = some m := by
  intro d
  induction d with
  | nil => simp [dataInsert, dataLookup]
  | cons e rest ih =>
    obtain ⟨p', fm'⟩ := e
    by_cases h : p' = p <;> simp [dataInsert, dataLookup, h, ih]

theorem dataInsert_length_fresh (p : String) (m : Fm) :
    ∀ d, dataLookup d p = none → (dataInsert d p m).length = d.length + 1 := by
  intro d
  induction d with
  | nil => intro _; rfl
  | cons e rest ih =>
    obtain ⟨p', fm'⟩ := e
    intro h
    by_cases hp : p' = p
    · simp [dataLookup, hp] at h
    · simp [dataLookup, hp] at h
      simp [dataInsert, hp, ih h]

theorem applyLimit_zero (xs : List α) : applyLimit (some 0) xs = xs := by
  simp [applyLimit, truthyLimit]

theorem applyLimit_none (xs : List α) : applyLimit none xs = xs := by
  simp [applyLimit, truthyLimit]

theorem gfwaLoop_zero (attr : String) (v : Option Val) :
    ∀ (data : List (String × Fm)) (res : List String),
      gfwaLoop attr v (some 0) data res = gfwaLoop attr v none data res := by
  intro data
  induction data with
  | nil => intro res; rfl
  | cons e rest ih =>
    intro res
    obtain ⟨p, fm⟩ := e
    simp only [gfwaLoop, truthyLimit]
    simp [ih]

theorem gfwaLoop_none_filter (attr : String) (sv : Val) :
    ∀ (data : List (String × Fm)) (res : List String),
      gfwaLoop attr (some sv) none data res =
        res ++ (data.filter fun e =>
          match fmLookup e.2 attr with
          | some fv => valuesMatch fv sv
          | none => false).map Prod.fst := by
  intro data
  induction data with
  | nil => intro res; simp [gfwaLoop]
  | cons e rest ih =>
    intro res
    obtain ⟨p, fm⟩ := e
    simp only [gfwaLoop, truthyLimit]
    cases h : fmLookup fm attr with
    | none => simp [List.filter_cons, h, ih]
    | some fv =>
      cases hm : valuesMatch fv sv <;>
        simp [List.filter_cons, h, hm, ih]

theorem allPairs_map (ps : List (Val × Val)) :
    allPairs (ps.map fun q => Val.tuple [q.1, q.2]) = true := by
  induction ps with
  | nil => rfl
  | cons q qs ih => simpa [allPairs] using ih

theorem buildAcc_map_some (ps : List (Val × Val)) :
    ∀ acc, (ps.all fun q => q.1.hashable) = true →
      ∃ d, buildAcc acc (ps.map fun q => Val.tuple [q.1, q.2]) = some d := by
  induction ps with
  | nil => intro acc _; exact ⟨acc, rfl⟩
  | cons q qs ih =>
    intro acc h
    simp only [List.all_cons, Bool.and_eq_true] at h
    simpa [buildAcc, h.1] using ih _ h.2

theorem buildAcc_map_none (ps : List (Val × Val)) :
    ∀ acc, (ps.all fun q => q.1.hashable) = false →
      buildAcc acc (ps.map fun q => Val.tuple [q.1, q.2]) = none := by
  induction ps with
  | nil => intro acc h; simp at h
  | cons q qs ih =>
    intro acc h
    simp only [List.all_cons, Bool.and_eq_false_iff] at h
    rcases h with h | h
    · simp [buildAcc, h]
    · by_cases hq : q.1.hashable = true
      · simp [buildAcc, hq, ih _ h]
      · simp [buildAcc, Bool.eq_false_iff.mpr hq]

theorem bump_lookupCount (k q : Val) :
    ∀ c, lookupCount (bump c k) q = lookupCount c q + (if k = q then 1 else 0) := by
  intro c
  induction c with
  | nil => by_cases h : k = q <;> simp [bump, lookupCount, h]
  | cons p rest ih =>
    obtain ⟨k', n⟩ := p
    by_cases h1 : k' = k
    · subst h1
      by_cases h2 : k' = q <;> simp [bump, lookupCount, h2]
    · by_cases h2 : k' = q
      · subst h2
        have hkq : ¬ k = k' := fun e => h1 e.symm
        simp [bump, lookupCount, h1, hkq]
      · simp [bump, lookupCount, h1, h2, ih]

theorem explodeItems_lookupCount (q : Val) :
    ∀ (items : List Val) (c : List (Val × Nat)),
      lookupCount (explodeItems c items) q =
        lookupCount c q +
          (items.filter fun i => !skipItem i && decide (normalize_value i = q)).length := by
  intro items
  induction items with
  | nil => intro c; simp [explodeItems]
  | cons i rest ih =>
    intro c
    by_cases hs : skipItem i
    · simp [explodeItems, hs, List.filter_cons, ih]
    · by_cases hn : normalize_value i = q
      · simp [explodeItems, hs, List.filter_cons, hn, ih, bump_lookupCount]
        omega
      · simp [explodeItems, hs, List.filter_cons, hn, ih, bump_lookupCount]

theorem gavLoop_false_lookupCount (attr : String) (q : Val) :
    ∀ (data : List (String × Fm)) (c : List (Val × Nat)),
      lookupCount (gavLoop attr false data c) q = lookupCount c q + wholeBrute attr q data := by
  intro data
  induction data with
  | nil => intro c; simp [gavLoop, wholeBrute]
  | cons e rest ih =>
    intro c
    obtain ⟨p, fm⟩ := e
    cases hfm : fmLookup fm attr with
    | none => simp [gavLoop, hfm, wholeBrute, ih]
    | some v =>
      by_cases hn : normalize_value v = q
      · simp [gavLoop, hfm, wholeBrute, ih, bump_lookupCount, hn]; omega
      · simp [gavLoop, hfm, wholeBrute, ih, bump_lookupCount, hn]

theorem gavLoop_true_lookupCount (attr : String) (q : Val) :
    ∀ (data : List (String × Fm)) (c : List (Val × Nat)),
      lookupCount (gavLoop attr true data c) q = lookupCount c q + elemBrute attr q data := by
  intro data
  induction data with
  | nil => intro c; simp [gavLoop, elemBrute]
  | cons e rest ih =>
    intro c
    obtain ⟨p, fm⟩ := e
    cases hfm : fmLookup fm attr with
    | none => simp [gavLoop, hfm, elemBrute, ih]
    | some v =>
      cases v with
      | list items =>
        simp [gavLoop, hfm, elemBrute, ih, explodeItems_lookupCount]
        omega
      | null =>
        by_cases hn : normalize_value .null = q
        · simp [gavLoop, hfm, elemBrute, ih, bump_lookupCount, hn]; omega
        · simp [gavLoop, hfm, elemBrute, ih, bump_lookupCount, hn]
      | bool b =>
        by_cases hn : normalize_value (.bool b) = q
        · simp [gavLoop, hfm, elemBrute, ih, bump_lookupCount, hn]; omega
        · simp [gavLoop, hfm, elemBrute, ih, bump_lookupCount, hn]
      | int i =>
        by_cases hn : normalize_value (.int i) = q
        · simp [gavLoop, hfm, elemBrute, ih, bump_lookupCount, hn]; omega
        · simp [gavLoop, hfm, elemBrute, ih, bump_lookupCount, hn]
      | str s =>
        by_cases hn : normalize_value (.str s) = q
        · simp [gavLoop, hfm, elemBrute, ih, bump_lookupCount, hn]; omega
        · simp [gavLoop, hfm, elemBrute, ih, bump_lookupCount, hn]
      | tuple ys =>
        by_cases hn : normalize_value (.tuple ys) = q
        · simp [gavLoop, hfm, elemBrute, ih, bump_lookupCount, hn]; omega
        · simp [gavLoop, hfm, elemBrute, ih, bump_lookupCount, hn]
      | dict kvs =>
        by_cases hn : normalize_value (.dict kvs) = q
        · simp [gavLoop, hfm, elemBrute, ih, bump_lookupCount, hn]; omega
        · simp [gavLoop, hfm, elemBrute, ih, bump_lookupCount, hn]

theorem bump_fst_mem (k x : Val) :
    ∀ c : List (Val × Nat), x ∈ (bump c k).map Prod.fst ↔ x ∈ c.map Prod.fst ∨ x = k := by
  intro c
  induction c with
  | nil => simp [bump]
  | cons p rest ih =>
    obtain ⟨k', n⟩ := p
    by_cases h : k' = k <;> simp [bump, h, ih] <;> tauto

theorem bump_fst_nodup (k : Val) :
    ∀ c : List (Val × Nat), (c.map Prod.fst).Nodup → ((bump c k).map Prod.fst).Nodup := by
  intro c
  induction c with
  | nil => intro _; simp [bump]
  | cons p rest ih =>
    obtain ⟨k', n⟩ := p
    intro hn
    simp only [List.map_cons, List.nodup_cons] at hn
    by_cases h : k' = k
    · subst h
      simp only [bump, if_pos rfl, if_true, List.map_cons, List.nodup_cons]
      exact ⟨hn.1, hn.2⟩
    · simp only [bump, if_neg h, List.map_cons, List.nodup_cons]
      refine ⟨?_, ih hn.2⟩
      rw [bump_fst_mem]
      rintro (hm | hm)
      · exact hn.1 hm
      · exact h hm

theorem bump_pos (k : Val) :
    ∀ c : List (Val × Nat), (∀ p ∈ c, 0 < p.2) → ∀ p ∈ bump c k, 0 < p.2 := by
  intro c
  induction c with
  | nil => intro _ p hp; simp [bump] at hp; simp [hp]
  | cons q rest ih =>
    obtain ⟨k', n⟩ := q
    intro hpos p hp
    by_cases h : k' = k
    · simp [bump, h] at hp
      rcases hp with hp | hp
      · simp [hp]
      · exact hpos p (by simp [hp])
    · simp [bump, h] at hp
      rcases hp with hp | hp
      · exact hpos p (by simp [hp])
      · exact ih (fun r hr => hpos r (by simp [hr])) p hp

theorem explodeItems_preserves (P : List (Val × Nat) → Prop)
    (hP : ∀ c k, P c → P (bump c k)) :
    ∀ (items : List Val) (c : List (Val × Nat)), P c → P (explodeItems c items) := by
  intro items
  induction items with
  | nil => intro c h; exact h
  | cons i rest ih =>
    intro c h
    by_cases hs : skipItem i
    · simpa [explodeItems, hs] using ih c h
    · simpa [explodeItems, hs] using ih _ (hP _ _ h)

theorem gavLoop_preserves (attr : String) (ex : Bool) (P : List (Val × Nat) → Prop)
    (hP : ∀ c k, P c → P (bump c k)) :
    ∀ (data : List (String × Fm)) (c : List (Val × Nat)), P c → P (gavLoop attr ex data c) := by
  intro data
  induction data with
  | nil => intro c h; exact h
  | cons e rest ih =>
    intro c h
    obtain ⟨p, fm⟩ := e
    cases hfm : fmLookup fm attr with
    | none => simpa [gavLoop, hfm] using ih c h
    | some v =>
      cases ex with
      | false => simpa [gavLoop, hfm] using ih _ (hP _ _ h)
      | true =>
        cases v <;>
          simp [gavLoop, hfm] <;>
          first
          | exact ih _ (explodeItems_preserves P hP _ _ h)
          | exact ih _ (hP _ _ h)

theorem insertDescBy_perm (f : α → Nat) (x : α) :
    ∀ l, List.Perm (insertDescBy f x l) (x :: l) := by
  intro l
  induction l with
  | nil => simp [insertDescBy]
  | cons y ys ih =>
    by_cases h : f y ≤ f x
    · simp [insertDescBy, h]
    · simp only [insertDescBy, if_neg h]
      exact (ih.cons y).trans (List.Perm.swap x y ys)

theorem sortDescBy_perm (f : α → Nat) : ∀ l, List.Perm (sortDescBy f l) l := by
  intro l
  induction l with
  | nil => simp [sortDescBy]
  | cons x xs ih => exact (insertDescBy_perm f x _).trans (ih.cons x)

theorem insertDescBy_sorted (f : α → Nat) (x : α) :
    ∀ l, l.Pairwise (fun a b => f b ≤ f a) →
      (insertDescBy f x l).Pairwise (fun a b => f b ≤ f a) := by
  intro l
  induction l with
  | nil => intro _; simp [insertDescBy]
  | cons y ys ih =>
    intro hs
    rw [List.pairwise_cons] at hs
    by_cases h : f y ≤ f x
    · rw [insertDescBy, if_pos h, List.pairwise_cons]
      refine ⟨?_, List.pairwise_cons.mpr hs⟩
      intro z hz
      rcases List.mem_cons.mp hz with hz | hz
      · exact hz ▸ h
      · exact le_trans (hs.1 z hz) h
    · rw [insertDescBy, if_neg h, List.pairwise_cons]
      refine ⟨?_, ih hs.2⟩
      intro z hz
      rcases List.mem_cons.mp ((insertDescBy_perm f x ys).mem_iff.mp hz) with hz | hz
      · subst hz; omega
      · exact hs.1 z hz

theorem sortDescBy_sorted (f : α → Nat) :
    ∀ l, (sortDescBy f l).Pairwise (fun a b => f b ≤ f a) := by
  intro l
  induction l with
  | nil => simp [sortDescBy]
  | cons x xs ih => exact insertDescBy_sorted f x _ ih

theorem lookupCount_perm (q : Val) :
    ∀ {l l' : List (Val × Nat)}, List.Perm l l' → (l.map Prod.fst).Nodup →
      lookupCount l q = lookupCount l' q := by
  intro l l' h
  induction h with
  | nil => intro _; rfl
  | cons x _ ih =>
    intro hn
    obtain ⟨k, n⟩ := x
    simp only [List.map_cons, List.nodup_cons] at hn
    by_cases hk : k = q <;> simp [lookupCount, hk, ih hn.2]
  | swap x y l =>
    intro hn
    obtain ⟨k1, n1⟩ := y
    obtain ⟨k2, n2⟩ := x
    simp only [List.map_cons, List.nodup_cons, List.mem_cons] at hn
    have hne : k1 ≠ k2 := fun e => hn.1 (Or.inl e)
    by_cases h1 : k1 = q
    · subst h1
      have h2 : ¬ k2 = k1 := fun e => hne e.symm
      simp [lookupCount, h2]
    · by_cases h2 : k2 = q <;> simp [lookupCount, h1, h2]
  | trans h1 _ ih1 ih2 =>
    intro hn
    exact (ih1 hn).trans (ih2 (((h1.map Prod.fst).nodup_iff).mp hn))

theorem lookupCount_ne_zero_iff (q : Val) :
    ∀ l : List (Val × Nat), (∀ p ∈ l, 0 < p.2) →
      (lookupCount l q ≠ 0 ↔ q ∈ l.map Prod.fst) := by
  intro l
  induction l with
  | nil => intro _; simp [lookupCount]
  | cons p rest ih =>
    obtain ⟨k, n⟩ := p
    intro hpos
    by_cases hk : k = q
    · subst hk
      have : 0 < n := by have := hpos (k, n) (by simp); simpa using this
      simp [lookupCount]
      omega
    · have hrest := ih (fun r hr => hpos r (by simp [hr]))
      have hqk : ¬ q = k := fun e => hk e.symm
      simp [lookupCount, hk, hqk, hrest]

/-- The grouped counts of `get_attribute_values` with no limit: looking up any
value yields exactly the brute-force count for the requested mode. -/
theorem get_attribute_values_lookup (a : Analyzer) (attr : String) (ex : Bool) (q : Val) :
    lookupCount (get_attribute_values a attr none ex) q = modeBrute ex attr q a.data := by
  have hnodup : ((gavLoop attr ex a.data []).map Prod.fst).Nodup :=
    gavLoop_preserves attr ex (fun c => (c.map Prod.fst).Nodup)
      (fun c k h => bump_fst_nodup k c h) a.data [] (by simp)
  have hperm : List.Perm (sortDescBy (fun p => p.2) (gavLoop attr ex a.data []))
      (gavLoop attr ex a.data []) := sortDescBy_perm _ _
  have hsnd : ((sortDescBy (fun p => p.2) (gavLoop attr ex a.data [])).map Prod.fst).Nodup :=
    ((hperm.map Prod.fst).nodup_iff).mpr hnodup
  rw [get_attribute_values, applyLimit_none, lookupCount_perm q hperm hsnd]
  cases ex with
  | false => simpa [modeBrute, lookupCount] using gavLoop_false_lookupCount attr q a.data []
  | true => simpa [modeBrute, lookupCount] using gavLoop_true_lookupCount attr q a.data []

/-- Membership among the grouped values coincides with a non-zero brute
count. -/
theorem get_attribute_values_mem (a : Analyzer) (attr : String) (ex : Bool) (q : Val) :
    q ∈ (get_attribute_values a attr none ex).map Prod.fst ↔
      modeBrute ex attr q a.data ≠ 0 := by
  have hpos : ∀ p ∈ gavLoop attr ex a.data [], 0 < p.2 :=
    gavLoop_preserves attr ex (fun c => ∀ p ∈ c, 0 < p.2)
      (fun c k h => bump_pos k c h) a.data [] (by simp)
  have hperm : List.Perm (sortDescBy (fun p => p.2) (gavLoop attr ex a.data []))
      (gavLoop attr ex a.data []) := sortDescBy_perm _ _
  have hpos' : ∀ p ∈ sortDescBy (fun p => p.2) (gavLoop attr ex a.data []), 0 < p.2 :=
    fun p hp => hpos p (hperm.mem_iff.mp hp)
  rw [get_attribute_values, applyLimit_none, ← lookupCount_ne_zero_iff q _ hpos']
  have hl := get_attribute_values_lookup a attr ex q
  rw [get_attribute_values, applyLimit_none] at hl
  rw [hl]

theorem pyInsert_fresh (k x : Val) :
    ∀ acc : List (Val × Val), k ∉ acc.map Prod.fst →
      pyInsert acc k x = acc ++ [(k, x)] := by
  intro acc
  induction acc with
  | nil => intro _; rfl
  | cons e rest ih =>
    obtain ⟨k2, v2⟩ := e
    intro h
    simp only [List.map_cons, List.mem_cons] at h
    have h1 : ¬ k2 = k := fun e => h (Or.inl e.symm)
    simp [pyInsert, h1, ih (fun hm => h (Or.inr hm))]

theorem lookupVal_of_mem_nodup :
    ∀ (l : List (Val × Val)), (l.map Prod.fst).Nodup →
      ∀ k v, (k, v) ∈ l → lookupVal l k = some v := by
  intro l
  induction l with
  | nil => intro _ k v h; simp at h
  | cons e rest ih =>
    obtain ⟨k2, v2⟩ := e
    intro hn k v hmem
    simp only [List.map_cons, List.nodup_cons] at hn
    rcases List.mem_cons.mp hmem with hmem | hmem
    · obtain ⟨rfl, rfl⟩ : k2 = k ∧ v2 = v := by
        have := hmem
        simp only [Prod.mk.injEq] at this
        exact ⟨this.1.symm, this.2.symm⟩
      simp [lookupVal]
    · have hk : ¬ k2 = k := by
        intro e
        subst e
        exact hn.1 (List.mem_map.mpr ⟨(k2, v), hmem, rfl⟩)
      simp [lookupVal, hk, ih hn.2 k v hmem]

theorem pyEqPairs_of_forall :
    ∀ (D kvs : List (Val × Val)),
      (∀ p ∈ D, ∃ v', lookupVal kvs p.1 = some v' ∧ pyEq p.2 v' = true) →
      pyEqPairs D kvs = true := by
  intro D
  induction D with
  | nil => intro _ _; rfl
  | cons p rest ih =>
    obtain ⟨k, w⟩ := p
    intro kvs h
    obtain ⟨v', hl, hpe⟩ := h (k, w) (by simp)
    simp only [pyEqPairs, Bool.and_eq_true]
    exact ⟨by simp [hl, hpe], ih kvs (fun q hq => h q (by simp [hq]))⟩

theorem allPairs_normList : ∀ xs, allPairs (normList xs) = xs.all normalizesToPair := by
  intro xs
  induction xs with
  | nil => rfl
  | cons x xs ih =>
    simp only [normList, List.all_cons, normalizesToPair]
    cases hnx : normalize_value x with
    | tuple ys =>
      match ys with
      | [] => simp [allPairs]
      | [a] => simp [allPairs]
      | [a, b] => simp [allPairs, ih]
      | a :: b :: c :: t => simp [allPairs]
    | null => simp [allPairs]
    | bool b => simp [allPairs]
    | int i => simp [allPairs]
    | str s => simp [allPairs]
    | list l => simp [allPairs]
    | dict d => simp [allPairs]

theorem safeList_mem : ∀ xs, safeList xs = true → ∀ x ∈ xs, safeVal x = true := by
  intro xs
  induction xs with
  | nil => intro _ x h; simp at h
  | cons y ys ih =>
    intro h x hx
    simp only [safeList, Bool.and_eq_true] at h
    rcases List.mem_cons.mp hx with hx | hx
    · exact hx ▸ h.1
    · exact ih h.2 x hx

theorem safePairs_mem : ∀ kvs, safePairs kvs = true → ∀ p ∈ kvs, safeVal p.2 = true := by
  intro kvs
  induction kvs with
  | nil => intro _ p h; simp at h
  | cons q qs ih =>
    intro h p hp
    simp only [safePairs, Bool.and_eq_true] at h
    rcases List.mem_cons.mp hp with hp | hp
    · exact hp ▸ h.1
    · exact ih h.2 p hp

theorem buildAcc_map_eq :
    ∀ (S acc : List (Val × Val)),
      (∀ p ∈ S, p.1.hashable = true) →
      (S.map Prod.fst).Nodup →
      (∀ p ∈ S, p.1 ∉ acc.map Prod.fst) →
      buildAcc acc (S.map fun q => Val.tuple [q.1, q.2]) =
        some (acc ++ S.map fun q => (q.1, denormalize_value q.2)) := by
  intro S
  induction S with
  | nil => intro acc _ _ _; simp [buildAcc]
  | cons q S ih =>
    obtain ⟨k, w⟩ := q
    intro acc hh hn hf
    have hk : k.hashable = true := hh (k, w) (by simp)
    simp only [List.map_cons, buildAcc, hk, if_pos rfl, if_true]
    rw [pyInsert_fresh k (denormalize_value w) acc (hf (k, w) (by simp))]
    simp only [List.map_cons, List.nodup_cons] at hn
    rw [ih (acc ++ [(k, denormalize_value w)])
      (fun p hp => hh p (by simp [hp])) hn.2 ?_]
    · simp
    · intro p hp
      simp only [List.map_append, List.mem_append]
      rintro (hm | hm)
      · exact hf p (by simp [hp]) hm
      · simp at hm
        exact hn.1 (hm ▸ List.mem_map.mpr ⟨p, hp, rfl⟩)

theorem normPairs_fst (l : List (Val × Val)) :
    (normPairs l).map Prod.fst = l.map Prod.fst := by
  rw [normPairs_eq_map, List.map_map]
  rfl

theorem roundtrip_all : ∀ n : Nat,
    (∀ v : Val, sizeOf v ≤ n → safeVal v = true →
      pyEq (denormalize_value (normalize_value v)) v = true) ∧
    (∀ xs : List Val, sizeOf xs ≤ n → safeList xs = true →
      pyEqList (denormList (normList xs)) xs = true) := by
  intro n
  induction n with
  | zero =>
    constructor
    · intro v h _
      exact absurd h (by have := Val.sizeOf_pos v; omega)
    · intro xs h _
      exfalso
      cases xs <;> simp_arith at h
  | succ n ih =>
    obtain ⟨ihv, ihl⟩ := ih
    constructor
    · intro v hsz hsafe
      cases v with
      | null => decide
      | bool b => simp [normalize_value, denormalize_value, pyEq, Val.beq]
      | int i => simp [normalize_value, denormalize_value, pyEq, Val.beq]
      | str s => simp [normalize_value, denormalize_value, pyEq, Val.beq]
      | tuple xs => simp [safeVal] at hsafe
      | list xs =>
        cases xs with
        | nil => decide
        | cons x xs2 =>
          have hsz2 : sizeOf (x :: xs2) ≤ n := by simp_arith at hsz ⊢; omega
          simp only [safeVal, List.isEmpty_cons, Bool.false_or, Bool.and_eq_true,
            Bool.not_eq_true'] at hsafe
          obtain ⟨hall, hsl⟩ := hsafe
          have e1 : normalize_value (.list (x :: xs2)) =
              .tuple (normalize_value x :: normList xs2) := by
            simp [normalize_value, normList]
          rw [e1]
          have hap : allPairs (normalize_value x :: normList xs2) = false := by
            have := allPairs_normList (x :: xs2)
            simp only [normList] at this
            rw [this, hall]
          have e2 : denormalize_value (.tuple (normalize_value x :: normList xs2)) =
              .list (denormList (normalize_value x :: normList xs2)) := by
            simp [denormalize_value, hap]
          rw [e2]
          have e3 : pyEq (.list (denormList (normalize_value x :: normList xs2)))
              (.list (x :: xs2)) =
              pyEqList (denormList (normalize_value x :: normList xs2)) (x :: xs2) := by
            simp [pyEq]
          rw [e3]
          have := ihl (x :: xs2) hsz2 hsl
          simpa [normList] using this
      | dict kvs =>
        simp only [safeVal, Bool.and_eq_true] at hsafe
        obtain ⟨⟨h0, hdk⟩, hsp⟩ := hsafe
        obtain ⟨hsk, hnd⟩ := distinctStrKeys_spec kvs hdk
        have hSperm : List.Perm (sortPairs (normPairs kvs)) (normPairs kvs) :=
          sortPairs_perm _
        have hndS : ((sortPairs (normPairs kvs)).map Prod.fst).Nodup := by
          refine ((hSperm.map Prod.fst).nodup_iff).mpr ?_
          rw [normPairs_fst]
          exact hnd
        have hhash : ∀ p ∈ sortPairs (normPairs kvs), p.1.hashable = true := by
          intro p hp
          have hp2 : p ∈ normPairs kvs := hSperm.mem_iff.mp hp
          rw [normPairs_eq_map] at hp2
          rcases List.mem_map.mp hp2 with ⟨r, hr, he⟩
          obtain ⟨s, hs⟩ := hsk r hr
          rw [← he]
          simp [hs, Val.hashable]
        have e1 : normalize_value (.dict kvs) =
            .tuple ((sortPairs (normPairs kvs)).map fun p => Val.tuple [p.1, p.2]) := by
          simp [normalize_value]
        rw [e1]
        have hb := buildAcc_map_eq (sortPairs (normPairs kvs)) [] hhash hndS (by simp)
        have e2 : denormalize_value
            (.tuple ((sortPairs (normPairs kvs)).map fun p => Val.tuple [p.1, p.2])) =
            .dict ((sortPairs (normPairs kvs)).map fun q => (q.1, denormalize_value q.2)) := by
          cases hS : sortPairs (normPairs kvs) with
          | nil =>
            exfalso
            have hlen := hSperm.length_eq
            rw [hS] at hlen
            cases kvs with
            | nil => simp at h0
            | cons r rs =>
              rw [normPairs_eq_map] at hlen
              simp at hlen
          | cons s0 S2 =>
            rw [hS] at hb
            have hap := allPairs_map (s0 :: S2)
            simp only [List.map_cons] at hb hap ⊢
            simp only [List.nil_append] at hb
            simp [denormalize_value, hap, hb]
        rw [e2]
        have e3 : pyEq
            (.dict ((sortPairs (normPairs kvs)).map fun q => (q.1, denormalize_value q.2)))
            (.dict kvs) =
            (decide (((sortPairs (normPairs kvs)).map
                fun q => (q.1, denormalize_value q.2)).length = kvs.length) &&
              pyEqPairs ((sortPairs (normPairs kvs)).map
                fun q => (q.1, denormalize_value q.2)) kvs) := by
          simp [pyEq]
        rw [e3, Bool.and_eq_true]
        have hlen : ((sortPairs (normPairs kvs)).map
            fun q => (q.1, denormalize_value q.2)).length = kvs.length := by
          rw [List.length_map, hSperm.length_eq, normPairs_eq_map, List.length_map]
        refine ⟨by simp [hlen], pyEqPairs_of_forall _ kvs ?_⟩
        intro p hp
        rcases List.mem_map.mp hp with ⟨q, hqS, he⟩
        have hq2 : q ∈ normPairs kvs := hSperm.mem_iff.mp hqS
        rw [normPairs_eq_map] at hq2
        rcases List.mem_map.mp hq2 with ⟨r, hr, he2⟩
        obtain ⟨rk, rv⟩ := r
        have hkvs : sizeOf kvs ≤ n := by simp_arith at hsz; omega
        have hszr : sizeOf (rk, rv) < sizeOf kvs := List.sizeOf_lt_of_mem hr
        have hszv : sizeOf rv ≤ n := by simp_arith at hszr; omega
        have hsafev : safeVal rv = true := safePairs_mem kvs hsp (rk, rv) hr
        refine ⟨rv, ?_, ?_⟩
        · have hkey : p.1 = rk := by rw [← he, ← he2]
          rw [hkey]
          exact lookupVal_of_mem_nodup kvs hnd rk rv hr
        · have hval : p.2 = denormalize_value (normalize_value rv) := by
            rw [← he, ← he2]
          rw [hval]
          exact ihv rv hszv hsafev
    · intro xs hsz hsl
      cases xs with
      | nil => rfl
      | cons y ys =>
        simp only [safeList, Bool.and_eq_true] at hsl
        have hy : sizeOf y ≤ n := by simp_arith at hsz; omega
        have hys : sizeOf ys ≤ n := by simp_arith at hsz; omega
        simp only [normList, denormList, pyEqList, Bool.and_eq_true]
        exact ⟨ihv y hy hsl.1, ihl ys hys hsl.2⟩

/-! ## Claim theorems -/

/-- C9: `add_file(path, None)` leaves the index unchanged; `add_file(path, m)`
for any mapping `m` (the empty one included) stores `m` verbatim under the
path key; a note decoded to an empty mapping is present and counts toward
the total number of indexed files. -/
theorem ingest_none_noop_some_verbatim :
    (∀ (a : Analyzer) (p : String), add_file a p none = a) ∧
    (∀ (a : Analyzer) (p : String) (m : Fm),
      dataLookup (add_file a p (some m)).data p = some m) ∧
    (∀ (a : Analyzer) (p : String), dataLookup a.data p = none →
      get_total_files (add_file a p (some [])) = get_total_files a + 1) := by
  refine ⟨fun a p => rfl, fun a p m => dataInsert_lookup p m a.data, fun a p h => ?_⟩
  simpa [add_file, get_total_files] using dataInsert_length_fresh p [] a.data h

/-- C9 witness: on a concrete index, ingesting `None` is a no-op and
ingesting the empty mapping under a fresh path stores it and raises the
total file count to 2. -/
theorem ingest_none_noop_some_verbatim_witness :
    add_file ⟨[("q", [("k", Val.null)])]⟩ "p" none = ⟨[("q", [("k", Val.null)])]⟩ ∧
    dataLookup (add_file ⟨[("q", [("k", Val.null)])]⟩ "p" (some [])).data "p" = some [] ∧
    get_total_files (add_file ⟨[("q", [("k", Val.null)])]⟩ "p" (some [])) = 2 :=
  ⟨ingest_none_noop_some_verbatim.1 _ "p",
   ingest_none_noop_some_verbatim.2.1 _ "p" [],
   ingest_none_noop_some_verbatim.2.2 ⟨[("q", [("k", Val.null)])]⟩ "p" (by decide)⟩

/-- C10: a limit of `0` is falsy in Python, so passing `0` to
`get_files_with_attribute`, `get_attribute_values`, or as
`limit_values`/`limit_notes` to `get_attribute_values_with_notes` returns
the full untruncated result, exactly as passing no limit. -/
theorem zero_limit_means_no_limit :
    (∀ (a : Analyzer) (attr : String) (v : Option Val),
      get_files_with_attribute a attr v (some 0) =
        get_files_with_attribute a attr v none) ∧
    (∀ (a : Analyzer) (attr : String) (ex : Bool),
      get_attribute_values a attr (some 0) ex = get_attribute_values a attr none ex) ∧
    (∀ (a : Analyzer) (attr : String) (ln : Option Nat),
      get_attribute_values_with_notes a attr (some 0) ln =
        get_attribute_values_with_notes a attr none ln) ∧
    (∀ (a : Analyzer) (attr : String) (lv : Option Nat),
      get_attribute_values_with_notes a attr lv (some 0) =
        get_attribute_values_with_notes a attr lv none) := by
  refine ⟨fun a attr v => gfwaLoop_zero attr v a.data [],
    fun a attr ex => ?_, fun a attr ln => ?_, fun a attr lv => ?_⟩
  · simp [get_attribute_values, applyLimit_zero, applyLimit_none]
  · simp [get_attribute_values_with_notes, applyLimit_zero, applyLimit_none]
  · simp [get_attribute_values_with_notes, applyLimit_zero, applyLimit_none]

/-- C2 counterexample: `v = [\x7b'a': 1, 'b': 2\x7d]` contains no 2-element
sequence and no empty mapping, so it satisfies the claim's ambiguity
exclusion, yet the round trip fails: the 2-entry mapping normalizes to a
2-element tuple, so the outer tuple's single element looks like a key/value
pair and `denormalize` rebuilds a mapping
`\x7b('a', 1): ['b', 2]\x7d` instead of the original list. -/
theorem roundtrip_counterexample :
    noAmbigClaim (.list [.dict [(.str "a", .int 1), (.str "b", .int 2)]]) = true ∧
    isSourceVal (.list [.dict [(.str "a", .int 1), (.str "b", .int 2)]]) = true ∧
    pyEq (denormalize_value (normalize_value
        (.list [.dict [(.str "a", .int 1), (.str "b", .int 2)]])))
      (.list [.dict [(.str "a", .int 1), (.str "b", .int 2)]]) = false :=
  ⟨by decide, by decide, by decide⟩

/-- C2 amended: for every value built from scalars, sequences and non-empty
string-keyed mappings, if no non-empty sequence in it has all its elements
*normalizing to 2-element tuples* (this excludes elements that are 2-element
sequences and also those that are 2-entry mappings), then
`denormalize(normalize(v)) == v`, where `==` is Python equality (mappings
compare order-insensitively, as reconstruction resorts keys). -/
theorem roundtrip_on_safe_values (v : Val) (h : safeVal v = true) :
    pyEq (denormalize_value (normalize_value v)) v = true :=
  (roundtrip_all (sizeOf v)).1 v (Nat.le_refl _) h

/-- C2 witness: the round trip on a concrete nested safe value with an
out-of-order mapping. -/
theorem roundtrip_on_safe_values_witness :
    safeVal (.dict [(.str "b", .int 2), (.str "a", .list [.str "x", .null])]) = true ∧
    pyEq (denormalize_value (normalize_value
        (.dict [(.str "b", .int 2), (.str "a", .list [.str "x", .null])])))
      (.dict [(.str "b", .int 2), (.str "a", .list [.str "x", .null])]) = true :=
  ⟨by decide, roundtrip_on_safe_values _ (by decide)⟩

/-- C3 counterexample: on the canonical tuple `(("a", 1), ("a", 2))` — all
elements 2-tuples, duplicate-looking keys — `denormalize` does NOT fall back
to a sequence: the dict comprehension succeeds, the later pair overwrites the
earlier, and an element is silently dropped. -/
theorem denormalize_duplicate_keys_counterexample :
    denormalize_value (.tuple [.tuple [.str "a", .int 1], .tuple [.str "a", .int 2]]) =
      .dict [(.str "a", .int 2)] ∧
    denormalize_value (.tuple [.tuple [.str "a", .int 1], .tuple [.str "a", .int 2]]) ≠
      .list [.list [.str "a", .int 1], .list [.str "a", .int 2]] := by
  exact ⟨by decide, by decide⟩

/-- C3 amended: for every non-empty tuple all of whose elements are 2-tuples,
`denormalize` attempts reconstruction as a mapping; it falls back to a
sequence of recursively denormalized elements exactly when that attempt
raises, i.e. when some pair's key is unhashable — duplicate keys do not
trigger the fallback (the mapping keeps the last value for a repeated key,
dropping earlier pairs). -/
theorem denormalize_pair_tuple_behavior (p : Val × Val) (ps : List (Val × Val)) :
    (((p :: ps).all fun q => q.1.hashable) = true →
      ∃ d, denormalize_value (.tuple ((p :: ps).map fun q => Val.tuple [q.1, q.2])) =
        .dict d) ∧
    (((p :: ps).all fun q => q.1.hashable) = false →
      denormalize_value (.tuple ((p :: ps).map fun q => Val.tuple [q.1, q.2])) =
        .list (((p :: ps).map fun q => Val.tuple [q.1, q.2]).map denormalize_value)) := by
  constructor
  · intro h
    obtain ⟨d, hd⟩ := buildAcc_map_some (p :: ps) [] h
    refine ⟨d, ?_⟩
    have hap := allPairs_map (p :: ps)
    simp only [List.map_cons] at hd hap ⊢
    simp [denormalize_value, hap, hd]
  · intro h
    have hn := buildAcc_map_none (p :: ps) [] h
    have hap := allPairs_map (p :: ps)
    simp only [List.map_cons] at hn hap ⊢
    simp [denormalize_value, hap, hn, denormList_eq_map]

/-- C3 witness: a concrete unhashable (list) key makes the dict attempt fail
and the fallback rebuild the sequence. -/
theorem denormalize_pair_tuple_behavior_witness :
    ((([(Val.list [], Val.int 1)] : List (Val × Val)).all fun q => q.1.hashable) = false) ∧
    denormalize_value (.tuple (([(Val.list [], Val.int 1)] : List (Val × Val)).map
        fun q => Val.tuple [q.1, q.2])) =
      .list ((([(Val.list [], Val.int 1)] : List (Val × Val)).map
        fun q => Val.tuple [q.1, q.2]).map denormalize_value) :=
  ⟨by decide, (denormalize_pair_tuple_behavior (Val.list [], Val.int 1) []).2 (by decide)⟩

/-- C6 counterexample: the claim requires a match when the stored value
equals the search value directly, but for a stored *list* the code tests only
top-level membership — a note storing `["draft"]`, searched with the value
`["draft"]` itself, is not returned although the stored value equals the
search value directly. -/
theorem files_with_attribute_list_equality_counterexample :
    valuesMatchClaim (.list [.str "draft"]) (.list [.str "draft"]) = true ∧
    get_files_with_attribute ⟨[("n", [("status", .list [.str "draft"])])]⟩
      "status" (some (.list [.str "draft"])) none = [] := by
  exact ⟨by decide, by decide⟩

/-- C6 amended: with a search value given and no limit, the result is, in
index insertion order, exactly the notes containing the attribute whose
stored value matches per `_values_match`: top-level membership when the
stored value is a sequence (direct equality is not tested in that case),
direct equality otherwise.  On notes `\x7bstatus: draft\x7d` and
`\x7bstatus: published\x7d`, searching `status == draft` returns exactly the
first note. -/
theorem files_with_attribute_filter_order (a : Analyzer) (attr : String) (sv : Val) :
    get_files_with_attribute a attr (some sv) none =
      (a.data.filter fun e =>
        match fmLookup e.2 attr with
        | some fv => valuesMatch fv sv
        | none => false).map Prod.fst ∧
    get_files_with_attribute
      ⟨[("first", [("status", .str "draft")]), ("second", [("status", .str "published")])]⟩
      "status" (some (.str "draft")) none = ["first"] := by
  exact ⟨by simpa using gfwaLoop_none_filter attr sv a.data [], by decide⟩

/-- Every Python-hashable value is a fixed point of normalization (only
lists and dicts, both unhashable, are rewritten at the top level). -/
theorem normalize_fixed_of_hashable : ∀ v : Val, v.hashable = true → normalize_value v = v := by
  intro v hv
  cases v <;> simp [Val.hashable] at hv <;> simp [normalize_value]

/-- C1 counterexample: one note with `refs: ["[[H]]", "[[H]]"]`.
`child_count("[[H]]")` is 2 (element occurrences are counted), while the
claim's parentCount + refsCount — both counting *notes* — is 0 + 1 = 1. -/
theorem child_count_duplicate_refs_counterexample :
    get_child_count ⟨[("n", [("refs", .list [.str "[[H]]", .str "[[H]]"])])]⟩
      (.str "[[H]]") "parent" "refs" = 2 ∧
    wholeBrute "parent" (normalize_value (.str "[[H]]"))
        [("n", [("refs", .list [.str "[[H]]", .str "[[H]]"])])] +
      refsNoteBrute "refs" (normalize_value (.str "[[H]]"))
        [("n", [("refs", .list [.str "[[H]]", .str "[[H]]"])])] = 1 :=
  ⟨by decide, by decide⟩

/-- C1 amended: for every index and every hashable hub value (an unhashable
one raises in Python's `dict.get`), `child_count` is parentCount plus the
number of *element occurrences* in refs sequences: parentCount counts notes
whose parent value, whole-value normalized, equals the normalized hub value;
the refs side counts, across all notes, the non-skipped elements of a
list-valued refs attribute that normalize to the hub value (a non-list refs
value counts as a whole), so a hub occurring twice in one note's refs list
counts twice.  On the combined hub scenario `child_count` yields 4, 1 and 0
for `"[[Hub]]"`, `"[[Other]]"` and `"[[Missing]]"`. -/
theorem child_count_parent_plus_refs (a : Analyzer) (hub : Val) (pa ra : String)
    (h : hub.hashable = true) :
    (get_child_count a hub pa ra =
      wholeBrute pa (normalize_value hub) a.data +
        elemBrute ra (normalize_value hub) a.data) ∧
    get_child_count hubScenario (.str "[[Hub]]") "parent" "refs" = 4 ∧
    get_child_count hubScenario (.str "[[Other]]") "parent" "refs" = 1 ∧
    get_child_count hubScenario (.str "[[Missing]]") "parent" "refs" = 0 := by
  refine ⟨?_, by decide, by decide, by decide⟩
  rw [normalize_fixed_of_hashable hub h]
  have h1 := get_attribute_values_lookup a pa false hub
  have h2 := get_attribute_values_lookup a ra true hub
  simp [get_child_count, h1, h2, modeBrute]

/-- C1 witness: the amended equation instantiated on the combined hub
scenario at the hashable hub `"[[Hub]]"`. -/
theorem child_count_parent_plus_refs_witness :
    (Val.str "[[Hub]]").hashable = true ∧
    get_child_count hubScenario (.str "[[Hub]]") "parent" "refs" =
      wholeBrute "parent" (normalize_value (.str "[[Hub]]")) hubScenario.data +
        elemBrute "refs" (normalize_value (.str "[[Hub]]")) hubScenario.data :=
  ⟨by decide,
   (child_count_parent_plus_refs hubScenario (.str "[[Hub]]") "parent" "refs" (by decide)).1⟩

/-- C4: with `explode_list=true` and no limit, the reported count of every
value equals the brute element count: each element of a list value counts
separately, skipped exactly when it is null, the empty string, an empty
sequence, an empty mapping, or when its normalized form is the empty tuple;
a non-sequence value counts as a single whole-value normalization.  The
explode scenario yields exactly `[[A]] ↦ 2, [[B]] ↦ 1`. -/
theorem attribute_values_explode_counts (a : Analyzer) (attr : String) (q : Val) :
    lookupCount (get_attribute_values a attr none true) q = elemBrute attr q a.data ∧
    get_attribute_values refsScenario "refs" none true =
      [(.str "[[A]]", 2), (.str "[[B]]", 1)] := by
  exact ⟨by simpa [modeBrute] using get_attribute_values_lookup a attr true q, by decide⟩

theorem unionKeys_mem (pc rc : List (Val × Nat)) (h : Val) :
    h ∈ unionKeys pc rc ↔ h ∈ pc.map Prod.fst ∨ h ∈ rc.map Prod.fst := by
  by_cases hp : h ∈ pc.map Prod.fst
  · have : pc.any (fun p => p.1 = h) = true := by
      rcases List.mem_map.mp hp with ⟨p, hm, he⟩
      exact List.any_eq_true.mpr ⟨p, hm, by simp [he]⟩
    simp [unionKeys, hp, List.mem_filter, this]
  · have : pc.any (fun p => p.1 = h) = false := by
      rw [List.any_eq_false]
      intro p hm
      simp only [decide_eq_true_eq]
      intro he
      exact hp (List.mem_map.mpr ⟨p, hm, he⟩)
    simp [unionKeys, hp, List.mem_filter, this]

theorem map_fst_mk_map (l : List Val) (f1 f2 f3 : Val → Nat) :
    (l.map fun h => (h, f1 h, f2 h, f3 h)).map Prod.fst = l := by
  induction l with
  | nil => rfl
  | cons x xs ih => simp [ih]

theorem gav_lookup_false (a : Analyzer) (pa : String) (q : Val) :
    lookupCount (get_attribute_values a pa none false) q = wholeBrute pa q a.data := by
  simpa [modeBrute] using get_attribute_values_lookup a pa false q

theorem gav_lookup_true (a : Analyzer) (ra : String) (q : Val) :
    lookupCount (get_attribute_values a ra none true) q = elemBrute ra q a.data := by
  simpa [modeBrute] using get_attribute_values_lookup a ra true q

theorem gav_mem_false (a : Analyzer) (pa : String) (q : Val) :
    q ∈ (get_attribute_values a pa none false).map Prod.fst ↔
      wholeBrute pa q a.data ≠ 0 := by
  simpa [modeBrute] using get_attribute_values_mem a pa false q

theorem gav_mem_true (a : Analyzer) (ra : String) (q : Val) :
    q ∈ (get_attribute_values a ra none true).map Prod.fst ↔
      elemBrute ra q a.data ≠ 0 := by
  simpa [modeBrute] using get_attribute_values_mem a ra true q

/-- C5 counterexample: a note with `refs: [null]`.  `null` appears raw as a
refs element, so the claim's union contains it, but the explode pass skips
null elements and the breakdown is empty — the result's domain is not the
union of appearing parent values and refs elements. -/
theorem child_counts_union_counterexample :
    appearsRaw "parent" "refs" .null [("n", [("refs", .list [.null])])] = true ∧
    get_child_counts_breakdown ⟨[("n", [("refs", .list [.null])])]⟩ "parent" "refs" = [] :=
  ⟨by decide, by decide⟩

/-- C5 amended: every breakdown entry satisfies total = parent + refs, with
the parent part the whole-value normalized count, the refs part the exploded
element count, and the total equal to `child_count` of that hub computed
individually; the domain is exactly the set of values with a non-zero
parent-or-refs count (the normalized parent values and the normalized
non-skipped refs elements); entries are sorted by total descending. -/
theorem child_counts_breakdown_correct (a : Analyzer) (pa ra : String) :
    (∀ h pcv rcv t, (h, pcv, rcv, t) ∈ get_child_counts_breakdown a pa ra →
      t = pcv + rcv ∧ pcv = wholeBrute pa h a.data ∧ rcv = elemBrute ra h a.data ∧
      t = get_child_count a h pa ra) ∧
    (∀ h : Val, h ∈ (get_child_counts_breakdown a pa ra).map Prod.fst ↔
      wholeBrute pa h a.data + elemBrute ra h a.data ≠ 0) ∧
    (get_child_counts_breakdown a pa ra).Pairwise (fun x y => y.2.2.2 ≤ x.2.2.2) := by
  refine ⟨?_, ?_, ?_⟩
  · intro h pcv rcv t hmem
    rw [get_child_counts_breakdown] at hmem
    have hmem2 := (sortDescBy_perm _ _).mem_iff.mp hmem
    rcases List.mem_map.mp hmem2 with ⟨h2, _, heq⟩
    simp only [Prod.mk.injEq] at heq
    obtain ⟨he, hpcv, hrcv, ht⟩ := heq
    subst he
    refine ⟨by omega, ?_, ?_, ?_⟩
    · rw [← hpcv, gav_lookup_false]
    · rw [← hrcv, gav_lookup_true]
    · rw [← ht, get_child_count]
  · intro h
    rw [get_child_counts_breakdown]
    rw [((sortDescBy_perm _ _).map Prod.fst).mem_iff, map_fst_mk_map, unionKeys_mem,
      gav_mem_false, gav_mem_true]
    omega
  · rw [get_child_counts_breakdown]
    exact sortDescBy_sorted _ _

theorem bumpNote_lookupGroup (k q : Val) (p : String) :
    ∀ g, lookupGroup (bumpNote g k p) q =
      if k = q then lookupGroup g q ++ [p] else lookupGroup g q := by
  intro g
  induction g with
  | nil => by_cases h : k = q <;> simp [bumpNote, lookupGroup, h]
  | cons e rest ih =>
    obtain ⟨k2, ns⟩ := e
    by_cases h1 : k2 = k
    · subst h1
      by_cases h2 : k2 = q <;> simp [bumpNote, lookupGroup, h2]
    · by_cases h2 : k2 = q
      · subst h2
        have hkq : ¬ k = k2 := fun e => h1 e.symm
        simp [bumpNote, lookupGroup, h1, hkq]
      · simp [bumpNote, lookupGroup, h1, h2, ih]

theorem bumpNote_fst_mem (k : Val) (p : String) (x : Val) :
    ∀ g : List (Val × List String),
      x ∈ (bumpNote g k p).map Prod.fst ↔ x ∈ g.map Prod.fst ∨ x = k := by
  intro g
  induction g with
  | nil => simp [bumpNote]
  | cons e rest ih =>
    obtain ⟨k2, ns⟩ := e
    by_cases h : k2 = k <;> simp [bumpNote, h, ih] <;> tauto

theorem bumpNote_fst_nodup (k : Val) (p : String) :
    ∀ g : List (Val × List String),
      (g.map Prod.fst).Nodup → ((bumpNote g k p).map Prod.fst).Nodup := by
  intro g
  induction g with
  | nil => intro _; simp [bumpNote]
  | cons e rest ih =>
    obtain ⟨k2, ns⟩ := e
    intro hn
    simp only [List.map_cons, List.nodup_cons] at hn
    by_cases h : k2 = k
    · subst h
      simp only [bumpNote, if_pos rfl, if_true, List.map_cons, List.nodup_cons]
      exact ⟨hn.1, hn.2⟩
    · simp only [bumpNote, if_neg h, List.map_cons, List.nodup_cons]
      refine ⟨?_, ih hn.2⟩
      rw [bumpNote_fst_mem]
      rintro (hm | hm)
      · exact hn.1 hm
      · exact h hm

theorem gavnLoop_lookupGroup (attr : String) (q : Val) :
    ∀ (data : List (String × Fm)) (g : List (Val × List String)),
      lookupGroup (gavnLoop attr data g) q = lookupGroup g q ++ groupBrute attr q data := by
  intro data
  induction data with
  | nil => intro g; simp [gavnLoop, groupBrute]
  | cons e rest ih =>
    intro g
    obtain ⟨p, fm⟩ := e
    cases hfm : fmLookup fm attr with
    | none => simp [gavnLoop, hfm, groupBrute, ih]
    | some v =>
      by_cases hn : normalize_value v = q <;>
        simp [gavnLoop, hfm, groupBrute, ih, bumpNote_lookupGroup, hn]

theorem gavnLoop_fst_nodup (attr : String) :
    ∀ (data : List (String × Fm)) (g : List (Val × List String)),
      (g.map Prod.fst).Nodup → ((gavnLoop attr data g).map Prod.fst).Nodup := by
  intro data
  induction data with
  | nil => intro g h; exact h
  | cons e rest ih =>
    intro g h
    obtain ⟨p, fm⟩ := e
    cases hfm : fmLookup fm attr with
    | none => simpa [gavnLoop, hfm] using ih g h
    | some v => simpa [gavnLoop, hfm] using ih _ (bumpNote_fst_nodup _ _ _ h)

theorem lookupGroup_of_mem_nodup :
    ∀ (l : List (Val × List String)), (l.map Prod.fst).Nodup →
      ∀ v ns, (v, ns) ∈ l → lookupGroup l v = ns := by
  intro l
  induction l with
  | nil => intro _ v ns h; simp at h
  | cons e rest ih =>
    obtain ⟨k, ms⟩ := e
    intro hn v ns hmem
    simp only [List.map_cons, List.nodup_cons] at hn
    rcases List.mem_cons.mp hmem with hmem | hmem
    · obtain ⟨rfl, rfl⟩ : k = v ∧ ms = ns := by
        have := hmem
        simp only [Prod.mk.injEq] at this
        exact ⟨this.1.symm, this.2.symm⟩
      simp [lookupGroup]
    · have hkv : ¬ k = v := by
        intro e
        subst e
        exact hn.1 (List.mem_map.mpr ⟨(k, ns), hmem, rfl⟩)
      simp [lookupGroup, hkv, ih hn.2 v ns hmem]

theorem applyLimit_subset (lim : Option Nat) (l : List α) : applyLimit lim l ⊆ l := by
  rw [applyLimit]
  by_cases h : truthyLimit lim = true
  · rw [if_pos h]; exact List.take_subset _ _
  · rw [if_neg h]; exact fun x hx => hx

theorem applyLimit_sublist (lim : Option Nat) (l : List α) :
    List.Sublist (applyLimit lim l) l := by
  rw [applyLimit]
  by_cases h : truthyLimit lim = true
  · rw [if_pos h]; exact List.take_sublist _ _
  · rw [if_neg h]

theorem applyLimit_map (lim : Option Nat) (f : α → β) (l : List α) :
    applyLimit lim (l.map f) = (applyLimit lim l).map f := by
  rw [applyLimit, applyLimit]
  by_cases h : truthyLimit lim = true
  · rw [if_pos h, if_pos h, List.map_take]
  · rw [if_neg h, if_neg h]

/-- C8: in `attribute_value_notes` the count reported for each canonical
value is the true total number of notes grouped under that value (the length
of the full, untruncated group, whose note list the entry truncates at a
truthy `limit_notes`); the value entries are exactly the no-`limit_values`
result truncated after the descending sort by count; and the entries are
sorted by reported count descending. -/
theorem attribute_value_notes_true_counts (a : Analyzer) (attr : String)
    (lv ln : Option Nat) :
    (∀ v c notes, (v, c, notes) ∈ get_attribute_values_with_notes a attr lv ln →
      c = (groupBrute attr v a.data).length ∧
      notes = applyLimit ln (groupBrute attr v a.data)) ∧
    get_attribute_values_with_notes a attr lv ln =
      applyLimit lv (get_attribute_values_with_notes a attr none ln) ∧
    (get_attribute_values_with_notes a attr lv ln).Pairwise
      (fun x y => y.2.1 ≤ x.2.1) := by
  refine ⟨?_, ?_, ?_⟩
  · intro v c notes hmem
    rw [get_attribute_values_with_notes] at hmem
    rcases List.mem_map.mp hmem with ⟨g, hg, heq⟩
    have hg2 : g ∈ sortDescBy (fun g => g.2.length) (gavnLoop attr a.data []) :=
      applyLimit_subset lv _ hg
    have hg3 : g ∈ gavnLoop attr a.data [] := (sortDescBy_perm _ _).mem_iff.mp hg2
    have hnodup : ((gavnLoop attr a.data []).map Prod.fst).Nodup :=
      gavnLoop_fst_nodup attr a.data [] (by simp)
    obtain ⟨gk, gns⟩ := g
    simp only [Prod.mk.injEq] at heq
    obtain ⟨hk, hc, hnotes⟩ := heq
    rw [hk] at hg3
    have hlook : lookupGroup (gavnLoop attr a.data []) v = gns :=
      lookupGroup_of_mem_nodup _ hnodup v gns hg3
    have hbrute : gns = groupBrute attr v a.data := by
      have := gavnLoop_lookupGroup attr v a.data []
      simp only [lookupGroup, List.nil_append] at this
      rw [hlook] at this
      exact this
    exact ⟨by rw [← hc, hbrute], by rw [← hnotes, hbrute]⟩
  · rw [get_attribute_values_with_notes, get_attribute_values_with_notes,
      applyLimit_none, ← applyLimit_map]
  · rw [get_attribute_values_with_notes]
    refine List.pairwise_map.mpr ?_
    have hs := sortDescBy_sorted (fun g : Val × List String => g.2.length)
      (gavnLoop attr a.data [])
    exact List.Pairwise.sublist (applyLimit_sublist lv _) hs

/-- C8 witness: on a three-note index, the `"x"` entry of the result limited
to one value and one note reports the true count 2 while its note list is
truncated to the first note. -/
theorem attribute_value_notes_true_counts_witness :
    2 = (groupBrute "t" (.str "x")
      [("a", [("t", Val.str "x")]), ("b", [("t", Val.str "x")]), ("c", [("t", Val.str "y")])]).length ∧
    ["a"] = applyLimit (some 1) (groupBrute "t" (.str "x")
      [("a", [("t", Val.str "x")]), ("b", [("t", Val.str "x")]), ("c", [("t", Val.str "y")])]) :=
  (attribute_value_notes_true_counts
    ⟨[("a", [("t", Val.str "x")]), ("b", [("t", Val.str "x")]), ("c", [("t", Val.str "y")])]⟩
    "t" (some 1) (some 1)).1 (.str "x") 2 ["a"] (by decide)

/-- C7: `normalize` is invariant under mapping key reordering: for any two
mappings holding the same key/value pairs in different insertion order (keys
distinct strings, as frontmatter mappings are), normalization produces the
identical canonical value, because entries are sorted by key ascending;
in particular `normalize(\x7b'a':1,'b':2\x7d) == normalize(\x7b'b':2,'a':1\x7d)`. -/
theorem normalize_mapping_order_invariant (kvs kvs2 : List (Val × Val))
    (hperm : List.Perm kvs kvs2) (hkeys : distinctStrKeys kvs = true) :
    normalize_value (.dict kvs) = normalize_value (.dict kvs2) ∧
    normalize_value (.dict [(.str "a", .int 1), (.str "b", .int 2)]) =
      normalize_value (.dict [(.str "b", .int 2), (.str "a", .int 1)]) := by
  refine ⟨?_, by decide⟩
  have hperm2 : List.Perm (normPairs kvs) (normPairs kvs2) := by
    rw [normPairs_eq_map, normPairs_eq_map]
    exact hperm.map _
  obtain ⟨hsk, hnd⟩ := distinctStrKeys_spec kvs hkeys
  have hsk2 : StrKeyed (normPairs kvs) := by
    rw [normPairs_eq_map]
    intro p hp
    rcases List.mem_map.mp hp with ⟨q, hq, he⟩
    obtain ⟨s, hs⟩ := hsk q hq
    exact ⟨s, by rw [← he, hs]⟩
  have hnd2 : ((normPairs kvs).map Prod.fst).Nodup := by
    rw [normPairs_eq_map, List.map_map]
    have he : (Prod.fst ∘ fun p : Val × Val => (p.1, normalize_value p.2)) = Prod.fst := rfl
    rw [he]
    exact hnd
  simp only [normalize_value]
  rw [sortPairs_congr hperm2 hsk2 hnd2]

/-- C7 witness: the invariance applied to the two-key example mappings. -/
theorem normalize_mapping_order_invariant_witness :
    normalize_value (.dict [(.str "a", .int 1), (.str "b", .int 2)]) =
      normalize_value (.dict [(.str "b", .int 2), (.str "a", .int 1)]) :=
  (normalize_mapping_order_invariant
    [(.str "a", .int 1), (.str "b", .int 2)] [(.str "b", .int 2), (.str "a", .int 1)]
    (by decide) (by decide)).1

/-- C5 witness: the amended breakdown facts instantiated at the
`"[[Hub]]"` entry of the combined hub scenario. -/
theorem child_counts_breakdown_correct_witness :
    4 = 2 + 2 ∧ 2 = wholeBrute "parent" (.str "[[Hub]]") hubScenario.data ∧
    2 = elemBrute "refs" (.str "[[Hub]]") hubScenario.data ∧
    4 = get_child_count hubScenario (.str "[[Hub]]") "parent" "refs" :=
  (child_counts_breakdown_correct hubScenario "parent" "refs").1
    (.str "[[Hub]]") 2 2 4 (by decide)

end ObsidianFm
